import Mathlib

/-!
Verification of `update_readme.py` (repository CodedNil/home_flow).

The script has three parts, embedded shallowly below:

* `format_size` — converts a byte count to a human readable string
  (`"1.5 KB"`, `"2 MB"`).  The Python code computes `size / 1000` (or
  `size / 1000000`) as a float and renders it with `f"{x:.2f}"`, then strips
  trailing `'0'` characters and a trailing `'.'`.  We embed the float
  pipeline exactly over `Nat`/`Int`: `dblHundredths b d` computes the
  number of hundredths printed for the IEEE-754 binary64 double that
  Python's true division `b / d` returns (correctly rounded, ties to
  even), so that e.g. `format_size 1015 = "1.01 KB"`, exactly as CPython
  prints the double `1.01499999999999990...` — not the `"1.02"` that exact
  decimal rounding of 1.015 would give.  Decimal integer printing is
  embedded as `natRepr`.
* `update_badge` — `re.sub` with the pattern
  `(https://img.shields.io/badge/{badge_name}-)(.*?)(-blue)` and the
  replacement `group(1) ++ formatted ++ group(3)`.  The only regex
  metacharacters occurring in the pattern text are the `.` characters
  (which match any character except a newline) and the explicit lazy group
  `(.*?)`; `wildMatch` embeds the former and `findLazy` the latter
  (shortest middle, `.` again refusing `'\n'`).  `reSub` embeds the
  left-to-right, non-overlapping global substitution of `re.sub`.
* the `__main__` block — argument-count check, file read, two badge
  substitutions, file write.  `run_main` embeds it; `none` models an
  uncaught exception (`int` parse failure or missing file), and the
  `RunResult` fields record exit code, printed lines and the written file.

`int(...)` on a command line argument is embedded by `pyInt`: surrounding
whitespace is stripped, then an optional sign, then decimal digits with
optional single underscores between digits — the strings Python's `int()`
accepts (restricted to ASCII: `int()` additionally accepts non-ASCII
Unicode digits and spaces, which cannot occur in this tool's inputs).
-/

namespace UpdateReadme

set_option maxRecDepth 20000

/-- The ten decimal digit characters.  `digitChar n` is the character for a
digit `n < 10`; the function is only ever applied to values `< 10`. -/
def DIGITS : List Char := ['0', '1', '2', '3', '4', '5', '6', '7', '8', '9']

def digitChar (n : ℕ) : Char := DIGITS.getD n '0'

/-- Decimal representation of a natural number, most significant digit
first, via structural recursion on a fuel argument (`n + 1` is always
enough fuel). -/
def natReprAux : ℕ → ℕ → List Char
  | 0, _ => []
  | fuel + 1, n =>
    if n < 10 then [digitChar n]
    else natReprAux fuel (n / 10) ++ [digitChar (n % 10)]

def natRepr (n : ℕ) : List Char := natReprAux (n + 1) n

/-- Python's `str.rstrip(c)`: remove every trailing occurrence of `c`. -/
def rstrip (s : List Char) (c : Char) : List Char :=
  (s.reverse.dropWhile (· == c)).reverse

/-- Round `a / k` to the nearest integer, ties to even. -/
def roundHalfEven (a k : ℕ) : ℕ :=
  if 2 * (a % k) < k then a / k
  else if k < 2 * (a % k) then a / k + 1
  else if a / k % 2 = 0 then a / k else a / k + 1

/-- Floor base-2 logarithm by repeated halving (fuel-driven so that it
reduces in the kernel; `n` is always enough fuel). -/
def log2Aux : ℕ → ℕ → ℕ
  | 0, _ => 0
  | fuel + 1, n => if n < 2 then 0 else log2Aux fuel (n / 2) + 1

def natLog2 (n : ℕ) : ℕ := log2Aux n n

/-- The number of hundredths printed by `f"{x:.2f}"` where `x` is the
IEEE-754 binary64 double produced by Python's true division `b / d`
(here `d` is 1000 or 1000000).  Python divides with correct rounding to
the nearest double, ties to even: with `e = ⌊log2 (b/d)⌋` the double is
`m·2^(e-52)` for `m = rhe((b/d)·2^(52-e))` (a carry to `m = 2^53` is the
correctly rounded next power of two).  `f"{x:.2f}"` then rounds the exact
binary value of that double to a whole number of hundredths — never a tie,
since a binary rational is never an odd multiple of 1/200.  All quantities
below are kept in `ℕ` by a `2^64` scaling (`e' = e + 64`; the scaled
quotient is ≥ 2^44, so `natLog2` of its floor is `e'`).  For byte counts so
large that `b / d` leaves the double range Python raises an OverflowError
instead of producing a value; the formula is extended totally there, and
every input appearing in the claims is far below that bound. -/
def dblHundredths (b d : ℕ) : ℕ :=
  if b = 0 then 0
  else
    let exp := natLog2 (b * 2 ^ 64 / d)
    let m := if 52 ≤ exp then roundHalfEven (b * 2 ^ 64) (d * 2 ^ (exp - 52))
             else roundHalfEven (b * 2 ^ (116 - exp)) d
    if 116 ≤ exp then m * 2 ^ (exp - 116) * 100
    else roundHalfEven (m * 100) (2 ^ (116 - exp))

/-- `f"{x:.2f}"` for the non-negative value `n / 100`: the integer part in
decimal, a point, and the two-digit fraction. -/
def render2 (n : ℕ) : List Char :=
  natRepr (n / 100) ++ ['.', digitChar (n % 100 / 10), digitChar (n % 10)]

/-- `f"{x:.2f}".rstrip('0').rstrip('.')` for the value `n / 100`. -/
def strip2 (n : ℕ) : List Char := rstrip (rstrip (render2 n) '0') '.'

/-- `format_size` from `update_readme.py`, after the `int(...)` conversion:
values below `1000 * 1000` are divided by 1000 and shown in kilobytes, the
rest divided by 1000000 and shown in megabytes; the division happens on
binary doubles (`dblHundredths`), the two-decimal rendering and stripping
on the resulting hundredths (`strip2`).  A negative count keeps its sign:
both the division and the rendering are symmetric in it. -/
def format_size (z : ℤ) : String :=
  if z < 1000 * 1000 then
    ⟨(if z < 0 then ['-'] else []) ++ strip2 (dblHundredths z.natAbs 1000) ++ " KB".toList⟩
  else
    ⟨strip2 (dblHundredths z.natAbs 1000000) ++ " MB".toList⟩

/-- One step of `int(...)` digit accumulation. -/
def digitVal (c : Char) : Option ℕ :=
  if c.isDigit then some (c.toNat - 48) else none

def parseDigitsAux : ℕ → List Char → Option ℕ
  | acc, [] => some acc
  | acc, c :: cs =>
    match digitVal c with
    | some d => parseDigitsAux (acc * 10 + d) cs
    | none => none

/-- A non-empty all-digit string parses to its value, else `none`. -/
def parseDigits (l : List Char) : Option ℕ :=
  if l = [] then none else parseDigitsAux 0 l

/-- The ASCII whitespace characters `int(...)` strips around its argument
(`int()` also strips other Unicode space characters, which cannot occur in
this tool's command line arguments). -/
def isSpace (c : Char) : Bool :=
  c = ' ' || c = '\t' || c = '\n' || c = '\r' || c = '\x0b' || c = '\x0c'

/-- Strip leading and trailing whitespace, as `int(...)` does. -/
def stripWS (l : List Char) : List Char :=
  ((l.dropWhile isSpace).reverse.dropWhile isSpace).reverse

/-- Digits after the first one, where a single `_` is allowed strictly
between two digits (Python's digit grouping: `1_000` parses, `1__0`,
`1_` and `_1` do not).  The Boolean records whether the previous
character was a digit, so an underscore is legal only right after a digit
and the string may only end right after a digit. -/
def parseDigitsU : ℕ → Bool → List Char → Option ℕ
  | acc, prevDigit, [] => if prevDigit then some acc else none
  | acc, prevDigit, c :: cs =>
    if c = '_' then
      if prevDigit then parseDigitsU acc false cs else none
    else
      match digitVal c with
      | some d => parseDigitsU (acc * 10 + d) true cs
      | none => none

/-- The digit part of `int(...)`: at least one digit, then digits with
optional grouping underscores. -/
def pyIntDigits : List Char → Option ℕ
  | [] => none
  | c :: cs =>
    match digitVal c with
    | some d => parseDigitsU d true cs
    | none => none

/-- The sign-and-digits part of `int(...)`, applied after whitespace
stripping (no whitespace is allowed between the sign and the digits). -/
def pyIntSigned : List Char → Option ℤ
  | [] => none
  | c :: cs =>
    if c = '-' then (pyIntDigits cs).map (fun n => -(n : ℤ))
    else if c = '+' then (pyIntDigits cs).map (fun n => (n : ℤ))
    else (pyIntDigits (c :: cs)).map (fun n => (n : ℤ))

/-- Python's `int(s)` for a size argument: surrounding whitespace
stripped, optional sign, decimal digits with optional grouping
underscores.  `none` models a `ValueError`. -/
def pyInt (s : String) : Option ℤ :=
  pyIntSigned (stripWS s.toList)

/-- `format_size` as called in the script, on a string argument:
`int(size_in_bytes)` then formatting; `none` models the uncaught
`ValueError`. -/
def format_size_checked (s : String) : Option String :=
  (pyInt s).map format_size

/-- The literal suffix group `(-blue)` of the badge pattern. -/
def SUF : List Char := ['-', 'b', 'l', 'u', 'e']

/-- Matching of the first pattern group against the start of a text.  A `.`
in the pattern is the regex wildcard: it matches any character except a
newline.  Every other character occurring in the pattern text of the script
is a regex literal.  Returns `false` when the text is shorter than the
pattern. -/
def wildMatch : List Char → List Char → Bool
  | [], _ => true
  | _ :: _, [] => false
  | p :: ps, c :: cs =>
    (if p = '.' then c ≠ '\n' else p = c) && wildMatch ps cs

/-- The lazy group `(.*?)` followed by the literal `(-blue)`: find the
shortest middle (containing no newline, since `.` does not match `'\n'`)
after which `-blue` occurs.  Returns the middle and the rest after
`-blue`, or `none` when every occurrence of `-blue` is preceded by a
newline (or there is none). -/
def findLazy : List Char → Option (List Char × List Char)
  | [] => none
  | c :: cs =>
    if SUF.isPrefixOf (c :: cs) then some ([], (c :: cs).drop SUF.length)
    else if c = '\n' then none
    else
      match findLazy cs with
      | some (m, r) => some (c :: m, r)
      | none => none

/-- Attempt to match the whole badge pattern at the start of `t`:
group 1 (the prefix, matched by `wildMatch`), group 2 (the lazy middle)
and the rest of the text after the `-blue` suffix. -/
def tryMatch (pre t : List Char) : Option (List Char × List Char × List Char) :=
  if wildMatch pre t then
    match findLazy (t.drop pre.length) with
    | some (m, r) => some (t.take pre.length, m, r)
    | none => none
  else none

/-- `re.sub` scan: at each position try to match; on a match emit
`group(1) ++ F ++ "-blue"` and continue after the match, otherwise keep the
character and move on.  Structural recursion on a fuel argument; the text
length is always enough fuel since a match consumes at least `-blue`. -/
def reSubAux (pre F : List Char) : ℕ → List Char → List Char
  | _, [] => []
  | 0, c :: cs => c :: cs
  | fuel + 1, c :: cs =>
    match tryMatch pre (c :: cs) with
    | some (g, _, r) => g ++ F ++ SUF ++ reSubAux pre F fuel r
    | none => c :: reSubAux pre F fuel cs

/-- `re.sub(pattern, repl, t)` for the badge pattern `pre` and the
replacement middle `F`. -/
def reSub (pre F t : List Char) : List Char := reSubAux pre F t.length t

/-- The text of the first pattern group,
`https://img.shields.io/badge/{badge_name}-`.  The same character list
serves as the pattern (its dots are wildcards) and, read literally, as the
text the spec claims is matched. -/
def badgePre (badge_name : String) : List Char :=
  ("https://img.shields.io/badge/" ++ badge_name ++ "-").toList

/-- `update_badge` from `update_readme.py` (with the `int(...)` conversion
of the size argument already performed, see `run_main`). -/
def update_badge (content : String) (badge_name : String) (size_in_bytes : ℤ) : String :=
  ⟨reSub (badgePre badge_name) (format_size size_in_bytes).toList content.toList⟩

/-- Observable outcome of a terminating, non-crashing run. -/
structure RunResult where
  exitCode : ℕ
  printed : List String
  written : Option String
deriving DecidableEq

def usageMsg : String :=
  "Usage: python update_readme.py <server binary size> <wasm file size>"

/-- The `__main__` block.  `argv` is `sys.argv` (program name included);
`file` is the content of `README.md` (`none` when the file cannot be
read).  The result is `none` when an uncaught exception terminates the
process: a missing file, or `int(...)` failing on an argument.  The order
matches the script: argument count check, file read, the `binary_size`
substitution (which parses the first argument), the `wasm_size`
substitution (which parses the second), file write. -/
def run_main (argv : List String) (file : Option String) : Option RunResult :=
  match argv with
  | [_, a1, a2] =>
    match file with
    | none => none
    | some content =>
      match pyInt a1 with
      | none => none
      | some n1 =>
        match pyInt a2 with
        | none => none
        | some n2 =>
          some ⟨0, [], some (update_badge (update_badge content "binary_size" n1) "wasm_size" n2)⟩
  | _ => some ⟨1, [usageMsg], none⟩

/-- Does `pat` occur (contiguously) anywhere in `t`?  Used to state, about
concrete documents, that the literal marker text is absent. -/
def occursIn (pat t : List Char) : Bool :=
  t.tails.any (fun s => pat.isPrefixOf s)

/-! ### Decimal digits and `natRepr` -/

theorem digitChar_mem (n : ℕ) : digitChar n ∈ DIGITS := by
  unfold digitChar
  rcases Nat.lt_or_ge n DIGITS.length with h | h
  · have hd : DIGITS.getD n '0' = DIGITS[n] := by
      simp [List.getD_eq_getElem?_getD, List.getElem?_eq_getElem h]
    rw [hd]
    exact List.getElem_mem h
  · have hd : DIGITS.getD n '0' = '0' := by
      simp [List.getD_eq_getElem?_getD, List.getElem?_eq_none h]
    rw [hd]
    decide

theorem mem_DIGITS_ne {c : Char} (h : c ∈ DIGITS) :
    c ≠ '.' ∧ c ≠ '-' ∧ c ≠ '+' ∧ c ≠ '\n' ∧ c ≠ 'b' ∧ c ≠ 'l' ∧ c ≠ 'u' ∧ c ≠ 'e' := by
  fin_cases h <;> decide

theorem digitChar_ne_zero {k : ℕ} (h1 : 1 ≤ k) (h2 : k ≤ 9) : digitChar k ≠ '0' := by
  interval_cases k <;> decide

theorem digitVal_digitChar {n : ℕ} (h : n < 10) : digitVal (digitChar n) = some n := by
  interval_cases n <;> decide

theorem natReprAux_congr : ∀ f g n, n < f → n < g → natReprAux f n = natReprAux g n := by
  intro f
  induction f with
  | zero => omega
  | succ f ih =>
    intro g n hf hg
    cases g with
    | zero => omega
    | succ g =>
      by_cases h10 : n < 10
      · simp [natReprAux, h10]
      · have hd : n / 10 < n := Nat.div_lt_self (by omega) (by omega)
        simp only [natReprAux, if_neg h10]
        rw [ih g (n / 10) (by omega) (by omega)]

theorem natReprAux_succ (f n : ℕ) :
    natReprAux (f + 1) n =
      if n < 10 then [digitChar n] else natReprAux f (n / 10) ++ [digitChar (n % 10)] := rfl

theorem natRepr_eq (n : ℕ) :
    natRepr n = if n < 10 then [digitChar n]
                else natRepr (n / 10) ++ [digitChar (n % 10)] := by
  unfold natRepr
  rw [natReprAux_succ]
  by_cases h10 : n < 10
  · simp [h10]
  · have hd : n / 10 < n := Nat.div_lt_self (by omega) (by omega)
    rw [if_neg h10, if_neg h10,
      natReprAux_congr n (n / 10 + 1) (n / 10) (by omega) (by omega)]

theorem natRepr_ne_nil (n : ℕ) : natRepr n ≠ [] := by
  rw [natRepr_eq]
  split <;> simp

theorem natRepr_digits (n : ℕ) : ∀ c ∈ natRepr n, c ∈ DIGITS := by
  induction n using Nat.strong_induction_on with
  | _ n ih =>
    rw [natRepr_eq]
    by_cases h10 : n < 10
    · rw [if_pos h10]
      intro c hc
      rw [List.mem_singleton] at hc
      exact hc ▸ digitChar_mem n
    · rw [if_neg h10]
      intro c hc
      rcases List.mem_append.mp hc with h | h
      · exact ih (n / 10) (Nat.div_lt_self (by omega) (by omega)) c h
      · rw [List.mem_singleton] at h
        exact h ▸ digitChar_mem (n % 10)

/-! ### The two-decimal rendering and stripping of `format_size` -/

theorem rstrip_subset (s : List Char) (c : Char) : ∀ x ∈ rstrip s c, x ∈ s := by
  intro x hx
  unfold rstrip at hx
  have h1 : x ∈ s.reverse.dropWhile (fun y => y == c) := List.mem_reverse.mp hx
  exact List.mem_reverse.mp
    (List.Sublist.subset (List.dropWhile_sublist (fun y => y == c)) h1)

theorem dropWhileBeq_cons_pos {c a : Char} {l : List Char} (h : a = c) :
    (a :: l).dropWhile (fun y => y == c) = l.dropWhile (fun y => y == c) := by
  rw [List.dropWhile_cons, if_pos (by simp [h])]

theorem dropWhileBeq_cons_neg {c a : Char} {l : List Char} (h : ¬ a = c) :
    (a :: l).dropWhile (fun y => y == c) = a :: l := by
  rw [List.dropWhile_cons, if_neg (by simp [h])]

/-- `rstrip` of a list whose last character is not `c` does nothing. -/
theorem rstrip_append_ne (A : List Char) (a c : Char) (h : (a == c) = false) :
    rstrip (A ++ [a]) c = A ++ [a] := by
  unfold rstrip
  rw [List.reverse_append]
  show ((a :: A.reverse).dropWhile fun y => y == c).reverse = _
  rw [dropWhileBeq_cons_neg (by simpa using h), List.reverse_cons, List.reverse_reverse]

/-- The stripped rendering, characterised arithmetically: the spec's
"render with two decimal digits, strip trailing zeros, strip a trailing
point" applied to the value `n / 100`. -/
def stripSpec (n : ℕ) : List Char :=
  if n % 100 = 0 then natRepr (n / 100)
  else if n % 10 = 0 then natRepr (n / 100) ++ ['.', digitChar (n % 100 / 10)]
  else natRepr (n / 100) ++ ['.', digitChar (n % 100 / 10), digitChar (n % 10)]

theorem strip2_eq (n : ℕ) : strip2 n = stripSpec n := by
  have hd1 : digitChar (n % 100 / 10) ∈ DIGITS := digitChar_mem _
  have hd2 : digitChar (n % 10) ∈ DIGITS := digitChar_mem _
  have hz : digitChar 0 = '0' := by decide
  unfold strip2 stripSpec render2
  by_cases h10 : n % 10 = 0
  · by_cases h100 : n % 100 = 0
    · rw [if_pos h100]
      have e1 : n % 100 / 10 = 0 := by omega
      rw [e1, h10, hz]
      have s1 : rstrip (natRepr (n / 100) ++ ['.', '0', '0']) '0'
          = natRepr (n / 100) ++ ['.'] := by
        unfold rstrip
        rw [List.reverse_append]
        show (('0' :: '0' :: '.' :: (natRepr (n / 100)).reverse).dropWhile
          fun y => y == '0').reverse = _
        rw [dropWhileBeq_cons_pos rfl, dropWhileBeq_cons_pos rfl,
          dropWhileBeq_cons_neg (by decide), List.reverse_cons, List.reverse_reverse]
      rw [s1]
      unfold rstrip
      rw [List.reverse_append]
      show (('.' :: (natRepr (n / 100)).reverse).dropWhile fun y => y == '.').reverse = _
      rw [dropWhileBeq_cons_pos rfl]
      rcases hA : (natRepr (n / 100)).reverse with _ | ⟨c, rest⟩
      · exact absurd (by simpa using congrArg List.reverse hA) (natRepr_ne_nil (n / 100))
      · have hc : c ∈ DIGITS := natRepr_digits _ c
          (by rw [← List.mem_reverse, hA]; exact List.mem_cons_self c rest)
        rw [dropWhileBeq_cons_neg (mem_DIGITS_ne hc).1, ← hA,
          List.reverse_reverse]
    · rw [if_neg h100, if_pos h10, h10, hz]
      have hd1ne : digitChar (n % 100 / 10) ≠ '0' :=
        digitChar_ne_zero (by omega) (by omega)
      have s1 : rstrip (natRepr (n / 100) ++ ['.', digitChar (n % 100 / 10), '0']) '0'
          = natRepr (n / 100) ++ ['.', digitChar (n % 100 / 10)] := by
        unfold rstrip
        rw [List.reverse_append]
        show (('0' :: digitChar (n % 100 / 10) :: '.' :: (natRepr (n / 100)).reverse).dropWhile
          fun y => y == '0').reverse = _
        rw [dropWhileBeq_cons_pos rfl, dropWhileBeq_cons_neg hd1ne]
        simp
      rw [s1]
      have e : natRepr (n / 100) ++ ['.', digitChar (n % 100 / 10)]
          = (natRepr (n / 100) ++ ['.']) ++ [digitChar (n % 100 / 10)] := by simp
      rw [e, rstrip_append_ne _ _ _ (by simp [(mem_DIGITS_ne hd1).1]), ← e]
  · have hz2 : digitChar (n % 10) ≠ '0' := digitChar_ne_zero (by omega) (by omega)
    rw [if_neg (by omega : ¬ n % 100 = 0), if_neg h10]
    have e : natRepr (n / 100) ++ ['.', digitChar (n % 100 / 10), digitChar (n % 10)]
        = (natRepr (n / 100) ++ ['.', digitChar (n % 100 / 10)]) ++ [digitChar (n % 10)] := by
      simp
    rw [e, rstrip_append_ne _ _ _ (by simp [hz2]),
      rstrip_append_ne _ _ _ (by simp [(mem_DIGITS_ne hd2).1]), ← e]

/-! ### `pyInt` round-trips on integer-valued strings -/

theorem parseDigitsAux_append (acc : ℕ) (xs ys : List Char) :
    parseDigitsAux acc (xs ++ ys) =
      match parseDigitsAux acc xs with
      | some a => parseDigitsAux a ys
      | none => none := by
  induction xs generalizing acc with
  | nil => rfl
  | cons c cs ih =>
    show parseDigitsAux acc (c :: (cs ++ ys)) = _
    simp only [parseDigitsAux]
    cases hd : digitVal c with
    | some d => exact ih _
    | none => rfl

theorem parseDigitsAux_natRepr (n : ℕ) : ∀ acc,
    parseDigitsAux acc (natRepr n) = some (acc * 10 ^ (natRepr n).length + n) := by
  induction n using Nat.strong_induction_on with
  | _ n ih =>
    intro acc
    rw [natRepr_eq]
    by_cases h10 : n < 10
    · rw [if_pos h10]
      simp only [parseDigitsAux, digitVal_digitChar h10, List.length_singleton]
      norm_num
    · rw [if_neg h10]
      rw [parseDigitsAux_append]
      rw [ih (n / 10) (Nat.div_lt_self (by omega) (by omega)) acc]
      simp only [parseDigitsAux, digitVal_digitChar (Nat.mod_lt n (by omega)),
        List.length_append, List.length_singleton]
      congr 1
      have hm := Nat.div_add_mod n 10
      rw [pow_succ, ← Nat.mul_assoc, Nat.add_mul]
      omega

theorem parseDigits_natRepr (n : ℕ) : parseDigits (natRepr n) = some n := by
  unfold parseDigits
  rw [if_neg (natRepr_ne_nil n), parseDigitsAux_natRepr]
  simp

/-- The decimal form of an integer, sign included. -/
def intRepr (z : ℤ) : String :=
  ⟨if z < 0 then '-' :: natRepr z.natAbs else natRepr z.natAbs⟩

theorem mem_DIGITS_notSpace {c : Char} (h : c ∈ DIGITS) :
    isSpace c = false ∧ c ≠ '_' ∧ (digitVal c).isSome = true := by
  fin_cases h <;> exact ⟨by decide, by decide, by decide⟩

/-- On an underscore-free digit string, the grouping-aware parser agrees
with the plain one. -/
theorem parseDigitsU_digits : ∀ (l : List Char), (∀ c ∈ l, c ∈ DIGITS) →
    ∀ acc, parseDigitsU acc true l = parseDigitsAux acc l := by
  intro l
  induction l with
  | nil => intro _ _; rfl
  | cons c cs ih =>
    intro h acc
    have hc : c ∈ DIGITS := h c (List.mem_cons_self c cs)
    have hne : ¬ c = '_' := (mem_DIGITS_notSpace hc).2.1
    simp only [parseDigitsU]
    rw [if_neg hne]
    cases hd : digitVal c with
    | some d =>
      simp only [parseDigitsAux, hd]
      exact ih (fun x hx => h x (List.mem_cons_of_mem c hx)) _
    | none => simp only [parseDigitsAux, hd]

theorem pyIntDigits_natRepr (n : ℕ) : pyIntDigits (natRepr n) = some n := by
  have h := parseDigits_natRepr n
  rcases hA : natRepr n with _ | ⟨c, cs⟩
  · exact absurd hA (natRepr_ne_nil n)
  · rw [hA] at h
    unfold parseDigits at h
    rw [if_neg (by simp)] at h
    have hdig : ∀ x ∈ c :: cs, x ∈ DIGITS := by
      rw [← hA]
      exact natRepr_digits n
    show pyIntDigits (c :: cs) = some n
    simp only [pyIntDigits]
    cases hd : digitVal c with
    | none =>
      have hs := (mem_DIGITS_notSpace (hdig c (List.mem_cons_self c cs))).2.2
      rw [hd] at hs
      simp at hs
    | some d =>
      show parseDigitsU d true cs = some n
      rw [parseDigitsU_digits cs (fun x hx => hdig x (List.mem_cons_of_mem c hx)) d]
      have h2 : parseDigitsAux (0 * 10 + d) cs = some n := by
        simp only [parseDigitsAux, hd] at h
        exact h
      simpa using h2

theorem stripWS_eq_self {l : List Char} (h : ∀ c ∈ l, isSpace c = false) :
    stripWS l = l := by
  unfold stripWS
  have h2 : l.dropWhile isSpace = l := by
    cases l with
    | nil => rfl
    | cons c cs =>
      rw [List.dropWhile_cons, if_neg (by simp [h c (List.mem_cons_self c cs)])]
  rw [h2]
  rcases hrev : l.reverse with _ | ⟨c, rest⟩
  · have hl : l = [] := by simpa using congrArg List.reverse hrev
    simp [hl]
  · rw [List.dropWhile_cons,
      if_neg (by
        simp [h c (by rw [← List.mem_reverse, hrev]; exact List.mem_cons_self c rest)]),
      ← hrev, List.reverse_reverse]

theorem dropWhile_space_replicate (a : ℕ) (l : List Char) :
    (List.replicate a ' ' ++ l).dropWhile isSpace = l.dropWhile isSpace := by
  induction a with
  | zero => rfl
  | succ a ih =>
    show (' ' :: (List.replicate a ' ' ++ l)).dropWhile isSpace = _
    rw [List.dropWhile_cons, if_pos (by decide)]
    exact ih

/-- Whitespace padding around a whitespace-free token is stripped away. -/
theorem stripWS_pad (l : List Char) (a b : ℕ) (h : ∀ c ∈ l, isSpace c = false) :
    stripWS (List.replicate a ' ' ++ l ++ List.replicate b ' ') = l := by
  unfold stripWS
  rw [List.append_assoc, dropWhile_space_replicate]
  cases l with
  | nil =>
    have hb : (List.replicate b ' ').dropWhile isSpace = [] := by
      have := dropWhile_space_replicate b []
      simpa using this
    simp [hb]
  | cons c cs =>
    rw [List.cons_append, List.dropWhile_cons,
      if_neg (by simp [h c (List.mem_cons_self c cs)])]
    rw [show c :: (cs ++ List.replicate b ' ') = (c :: cs) ++ List.replicate b ' ' from rfl,
      List.reverse_append, List.reverse_replicate, dropWhile_space_replicate]
    rcases hrev : (c :: cs).reverse with _ | ⟨x, rest⟩
    · simp at hrev
    · rw [List.dropWhile_cons,
        if_neg (by
          simp [h x (by rw [← List.mem_reverse, hrev]; exact List.mem_cons_self x rest)]),
        ← hrev, List.reverse_reverse]

theorem intRepr_chars {z : ℤ} : ∀ c ∈ (intRepr z).toList, isSpace c = false := by
  intro c hc
  have hc' : c ∈ (if z < 0 then '-' :: natRepr z.natAbs else natRepr z.natAbs) := hc
  by_cases hz : z < 0
  · rw [if_pos hz] at hc'
    rcases List.mem_cons.mp hc' with h1 | h1
    · subst h1
      decide
    · exact (mem_DIGITS_notSpace (natRepr_digits _ c h1)).1
  · rw [if_neg hz] at hc'
    exact (mem_DIGITS_notSpace (natRepr_digits _ c hc')).1

theorem pyIntSigned_intRepr (z : ℤ) : pyIntSigned (intRepr z).toList = some z := by
  by_cases hz : z < 0
  · have he : (intRepr z).toList = '-' :: natRepr z.natAbs := by
      show (if z < 0 then '-' :: natRepr z.natAbs else natRepr z.natAbs) = _
      rw [if_pos hz]
    rw [he]
    have hps : pyIntSigned ('-' :: natRepr z.natAbs)
        = (pyIntDigits (natRepr z.natAbs)).map (fun n => -(n : ℤ)) := by
      simp [pyIntSigned]
    rw [hps, pyIntDigits_natRepr]
    show some (-(z.natAbs : ℤ)) = some z
    congr 1
    omega
  · have he : (intRepr z).toList = natRepr z.natAbs := by
      show (if z < 0 then '-' :: natRepr z.natAbs else natRepr z.natAbs) = _
      rw [if_neg hz]
    rw [he]
    rcases hA : natRepr z.natAbs with _ | ⟨c, cs⟩
    · exact absurd hA (natRepr_ne_nil _)
    · have hc : c ∈ DIGITS := natRepr_digits z.natAbs c (hA ▸ List.mem_cons_self c cs)
      have hps : pyIntSigned (c :: cs)
          = (pyIntDigits (c :: cs)).map (fun n => (n : ℤ)) := by
        simp [pyIntSigned, (mem_DIGITS_ne hc).2.1, (mem_DIGITS_ne hc).2.2.1]
      rw [hps, ← hA, pyIntDigits_natRepr]
      show some ((z.natAbs : ℕ) : ℤ) = some z
      congr 1
      omega

theorem pyInt_intRepr (z : ℤ) : pyInt (intRepr z) = some z := by
  unfold pyInt
  rw [stripWS_eq_self intRepr_chars]
  exact pyIntSigned_intRepr z

/-- Whitespace padding around an integer's decimal form does not change
the parse, as with Python's `int(" 500 ")`. -/
theorem pyInt_pad (z : ℤ) (a b : ℕ) :
    pyInt ⟨List.replicate a ' ' ++ (intRepr z).toList ++ List.replicate b ' '⟩ = some z := by
  unfold pyInt
  show pyIntSigned
    (stripWS (List.replicate a ' ' ++ (intRepr z).toList ++ List.replicate b ' ')) = some z
  rw [stripWS_pad _ a b intRepr_chars]
  exact pyIntSigned_intRepr z

/-! ### The pattern matcher: `wildMatch`, `findLazy`, `tryMatch` -/

theorem wildMatch_le_length {pre t : List Char} (h : wildMatch pre t = true) :
    pre.length ≤ t.length := by
  induction pre generalizing t with
  | nil => simp
  | cons p ps ih =>
    cases t with
    | nil => exact absurd h (by simp [wildMatch])
    | cons c cs =>
      simp only [wildMatch, Bool.and_eq_true] at h
      simpa using ih h.2

/-- `wildMatch` only inspects the first `pre.length` characters. -/
theorem wildMatch_congr {pre x y : List Char}
    (h : x.take pre.length = y.take pre.length) :
    wildMatch pre x = wildMatch pre y := by
  induction pre generalizing x y with
  | nil => rfl
  | cons p ps ih =>
    cases x with
    | nil =>
      cases y with
      | nil => rfl
      | cons d ds => simp at h
    | cons c cs =>
      cases y with
      | nil => simp at h
      | cons d ds =>
        simp only [List.length_cons, List.take_succ_cons, List.cons.injEq] at h
        simp only [wildMatch]
        rw [h.1, ih h.2]

/-- A pattern string with no newline character matches its own text: at
each `.` the wildcard accepts the `.` itself, everywhere else the literal
matches. -/
theorem wildMatch_self {p : List Char} (h : '\n' ∉ p) : wildMatch p p = true := by
  induction p with
  | nil => rfl
  | cons c cs ih =>
    simp only [wildMatch, Bool.and_eq_true]
    refine ⟨?_, ih (fun hm => h (List.mem_cons_of_mem c hm))⟩
    by_cases hc : c = '.'
    · simp [hc]
    · have : c ≠ '\n' := fun hc' => h (hc' ▸ List.mem_cons_self c cs)
      simp [hc, this]

theorem findLazy_some : ∀ {t m r : List Char}, findLazy t = some (m, r) →
    t = m ++ SUF ++ r ∧ '\n' ∉ m ∧
      ∀ i < m.length, SUF.isPrefixOf (t.drop i) = false := by
  intro t
  induction t with
  | nil => intro m r h; simp [findLazy] at h
  | cons c cs ih =>
    intro m r h
    rw [findLazy] at h
    by_cases hp : SUF.isPrefixOf (c :: cs) = true
    · rw [if_pos hp] at h
      obtain ⟨hm, hr⟩ : ([] : List Char) = m ∧ (c :: cs).drop SUF.length = r := by
        simpa using h
      subst hm
      subst hr
      have hpre : SUF = (c :: cs).take SUF.length :=
        List.prefix_iff_eq_take.mp ( List.isPrefixOf_iff_prefix.mp hp)
      refine ⟨?_, by simp, by simp⟩
      conv_lhs => rw [← List.take_append_drop SUF.length (c :: cs)]
      rw [← hpre]
      simp
    · rw [if_neg hp] at h
      by_cases hn : c = '\n'
      · rw [if_pos hn] at h
        exact absurd h (by simp)
      · rw [if_neg hn] at h
        cases hfl : findLazy cs with
        | none => rw [hfl] at h; exact absurd h (by simp)
        | some p =>
          obtain ⟨m', r'⟩ := p
          rw [hfl] at h
          obtain ⟨hm, hr⟩ : c :: m' = m ∧ r' = r := by simpa using h
          subst hm
          subst hr
          obtain ⟨he, hnl, hmin⟩ := ih hfl
          refine ⟨by simp [he], ?_, ?_⟩
          · intro hmem
            rcases List.mem_cons.mp hmem with h1 | h1
            · exact hn h1.symm
            · exact hnl h1
          · intro i hi
            cases i with
            | zero =>
              simpa using (Bool.not_eq_true _).mp hp
            | succ j =>
              simpa using hmin j (by simpa using hi)

theorem findLazy_complete : ∀ (m r : List Char), '\n' ∉ m →
    (∀ i < m.length, SUF.isPrefixOf ((m ++ SUF ++ r).drop i) = false) →
    findLazy (m ++ SUF ++ r) = some (m, r) := by
  intro m
  induction m with
  | nil =>
    intro r _ _
    show findLazy ('-' :: 'b' :: 'l' :: 'u' :: 'e' :: r) = some ([], r)
    rw [findLazy, if_pos (by simp [SUF, List.isPrefixOf])]
    rfl
  | cons c m' ih =>
    intro r hnl hmin
    have h0 : SUF.isPrefixOf (((c :: m') ++ SUF) ++ r) = false := by
      simpa using hmin 0 (by simp)
    have hc : ¬ c = '\n' := fun hc => hnl (hc ▸ List.mem_cons_self c m')
    simp only [List.cons_append] at h0 ⊢
    rw [findLazy, if_neg (by simp only [h0]; decide), if_neg hc,
      ih r (fun hm => hnl (List.mem_cons_of_mem c hm))
        (fun i hi => by simpa using hmin (i + 1) (by simpa using hi))]

theorem findLazy_none_iff : ∀ (t : List Char), findLazy t = none ↔
    ∀ q, SUF.isPrefixOf (t.drop q) = true → '\n' ∈ t.take q := by
  intro t
  induction t with
  | nil =>
    simp only [findLazy, List.drop_nil, List.take_nil, true_iff]
    intro q h
    exact absurd h (by simp [SUF, List.isPrefixOf])
  | cons c cs ih =>
    rw [findLazy]
    by_cases hp : SUF.isPrefixOf (c :: cs) = true
    · rw [if_pos hp]
      constructor
      · intro h; exact absurd h (by simp)
      · intro h
        have := h 0 (by simpa using hp)
        simp at this
    · rw [if_neg hp]
      by_cases hn : c = '\n'
      · rw [if_pos hn]
        constructor
        · intro _ q hq
          cases q with
          | zero => exact absurd hq (by simpa using hp)
          | succ j => simp [hn]
        · intro _; rfl
      · rw [if_neg hn]
        have lhs_iff : (match findLazy cs with
            | some (m, r) => some (c :: m, r)
            | none => none) = (none : Option (List Char × List Char)) ↔
            findLazy cs = none := by
          cases hfl : findLazy cs with
          | none => simp
          | some p => obtain ⟨m, r⟩ := p; simp
        rw [lhs_iff, ih]
        constructor
        · intro H q hq
          cases q with
          | zero => exact absurd hq (by simpa using hp)
          | succ j =>
            have := H j (by simpa using hq)
            simp only [List.take_succ_cons, List.mem_cons]
            exact Or.inr this
        · intro H q hq
          have h2 := H (q + 1) (by simpa using hq)
          simp only [List.take_succ_cons, List.mem_cons] at h2
          rcases h2 with h2 | h2
          · exact absurd h2.symm hn
          · exact h2

/-- Scanning the replacement middle: a list containing neither `'b'` nor a
newline cannot contain `-blue` or start it early, so the lazy search over
`F ++ -blue ++ r` finds exactly `F`. -/
theorem findLazy_skip : ∀ (F : List Char), (∀ c ∈ F, c ≠ 'b' ∧ c ≠ '\n') →
    ∀ r, findLazy (F ++ SUF ++ r) = some (F, r) := by
  intro F
  induction F with
  | nil =>
    intro _ r
    show findLazy ('-' :: 'b' :: 'l' :: 'u' :: 'e' :: r) = some ([], r)
    rw [findLazy, if_pos (by simp [SUF, List.isPrefixOf])]
    rfl
  | cons f F' ih =>
    intro hF r
    have hpf : SUF.isPrefixOf (f :: (F' ++ SUF ++ r)) = false := by
      cases F' with
      | nil => simp [SUF, List.isPrefixOf]
      | cons f2 F'' =>
        have hb : (('b' : Char) == f2) = false :=
          beq_eq_false_iff_ne.mpr (Ne.symm (hF f2 (by simp)).1)
        simp [SUF, List.isPrefixOf, hb]
    have hf : ¬ f = '\n' := (hF f (by simp)).2
    simp only [List.cons_append] at hpf ⊢
    rw [findLazy, if_neg (by simp only [hpf]; decide), if_neg hf,
      ih (fun c hc => hF c (List.mem_cons_of_mem f hc)) r]

theorem tryMatch_nil (pre : List Char) : tryMatch pre [] = none := by
  unfold tryMatch
  cases pre with
  | nil => simp [wildMatch, findLazy]
  | cons p ps => simp [wildMatch]

theorem tryMatch_some {pre t g m r : List Char} (h : tryMatch pre t = some (g, m, r)) :
    g = t.take pre.length ∧ g.length = pre.length ∧ wildMatch pre t = true ∧
      t = g ++ m ++ SUF ++ r ∧ '\n' ∉ m ∧ findLazy (t.drop pre.length) = some (m, r) := by
  unfold tryMatch at h
  by_cases hw : wildMatch pre t = true
  · rw [if_pos hw] at h
    cases hfl : findLazy (t.drop pre.length) with
    | none => rw [hfl] at h; exact absurd h (by simp)
    | some p =>
      obtain ⟨m', r'⟩ := p
      rw [hfl] at h
      obtain ⟨hg, hm, hr⟩ : t.take pre.length = g ∧ m' = m ∧ r' = r := by simpa using h
      subst hg
      subst hm
      subst hr
      obtain ⟨he, hnl, _⟩ := findLazy_some hfl
      refine ⟨rfl, ?_, hw, ?_, hnl, rfl⟩
      · simp [wildMatch_le_length hw]
      · conv_lhs => rw [← List.take_append_drop pre.length t]
        rw [he]
        simp
  · rw [if_neg hw] at h
    exact absurd h (by simp)

theorem tryMatch_length_lt {pre t g m r : List Char}
    (h : tryMatch pre t = some (g, m, r)) : r.length + 5 ≤ t.length := by
  obtain ⟨_, _, _, he, _, _⟩ := tryMatch_some h
  have := congrArg List.length he
  simp [SUF] at this
  omega

/-! ### `reSub`: unfolding equations -/

theorem reSubAux_nil (pre F : List Char) (fuel : ℕ) : reSubAux pre F fuel [] = [] := by
  cases fuel <;> rfl

theorem reSubAux_cons (pre F : List Char) (fuel : ℕ) (c : Char) (cs : List Char) :
    reSubAux pre F (fuel + 1) (c :: cs) =
      match tryMatch pre (c :: cs) with
      | some (g, _, r) => g ++ F ++ SUF ++ reSubAux pre F fuel r
      | none => c :: reSubAux pre F fuel cs := rfl

theorem reSubAux_congr (pre F : List Char) :
    ∀ f1 f2 t, t.length ≤ f1 → t.length ≤ f2 →
      reSubAux pre F f1 t = reSubAux pre F f2 t := by
  intro f1
  induction f1 with
  | zero =>
    intro f2 t h1 _
    have : t = [] := List.length_eq_zero.mp (by omega)
    subst this
    rw [reSubAux_nil, reSubAux_nil]
  | succ f1 ih =>
    intro f2 t h1 h2
    cases t with
    | nil => rw [reSubAux_nil, reSubAux_nil]
    | cons c cs =>
      cases f2 with
      | zero => simp at h2
      | succ f2 =>
        rw [reSubAux_cons, reSubAux_cons]
        cases htm : tryMatch pre (c :: cs) with
        | some p =>
          obtain ⟨g, m, r⟩ := p
          have hr := tryMatch_length_lt htm
          simp only [List.length_cons] at hr h1 h2
          show g ++ F ++ SUF ++ reSubAux pre F f1 r = g ++ F ++ SUF ++ reSubAux pre F f2 r
          rw [ih f2 r (by omega) (by omega)]
        | none =>
          simp only [List.length_cons] at h1 h2
          show c :: reSubAux pre F f1 cs = c :: reSubAux pre F f2 cs
          rw [ih f2 cs (by omega) (by omega)]

theorem reSub_nil (pre F : List Char) : reSub pre F [] = [] := rfl

theorem reSub_matched {pre t g m r : List Char} (F : List Char)
    (h : tryMatch pre t = some (g, m, r)) :
    reSub pre F t = g ++ F ++ SUF ++ reSub pre F r := by
  cases t with
  | nil => rw [tryMatch_nil] at h; exact absurd h (by simp)
  | cons c cs =>
    have hr := tryMatch_length_lt h
    simp only [List.length_cons] at hr
    show reSubAux pre F (c :: cs).length (c :: cs) = _
    simp only [List.length_cons]
    rw [reSubAux_cons, h]
    show g ++ F ++ SUF ++ reSubAux pre F cs.length r = _
    rw [reSubAux_congr pre F cs.length r.length r (by omega) (by omega)]
    rfl

theorem reSub_unmatched {pre : List Char} {c : Char} {cs : List Char} (F : List Char)
    (h : tryMatch pre (c :: cs) = none) :
    reSub pre F (c :: cs) = c :: reSub pre F cs := by
  show reSubAux pre F (c :: cs).length (c :: cs) = _
  simp only [List.length_cons]
  rw [reSubAux_cons, h]
  rfl

/-! ### Preservation lemmas for `reSub` -/

theorem isPrefixOf_congr {p x y : List Char} (h : x.take p.length = y.take p.length) :
    p.isPrefixOf x = p.isPrefixOf y := by
  induction p generalizing x y with
  | nil => simp [List.isPrefixOf]
  | cons a as ih =>
    cases x with
    | nil =>
      cases y with
      | nil => rfl
      | cons d ds => simp at h
    | cons c cs =>
      cases y with
      | nil => simp at h
      | cons d ds =>
        simp only [List.length_cons, List.take_succ_cons, List.cons.injEq] at h
        show (a == c && as.isPrefixOf cs) = (a == d && as.isPrefixOf ds)
        rw [h.1, ih h.2]

theorem mem_take_of_getElem {l : List Char} {i q : ℕ} {c : Char}
    (h1 : i < q) (h2 : i < l.length) (h3 : l[i] = c) : c ∈ l.take q := by
  have hlen : i < (l.take q).length := by simp; omega
  have h4 : (l.take q)[i] = l[i] := by simp [List.getElem_take]
  exact (h4.trans h3) ▸ List.getElem_mem hlen

/-- The first `pre.length` characters survive the substitution: a match
keeps its whole first group, a non-match keeps its character. -/
theorem reSub_take_aux (pre F : List Char) :
    ∀ k t, t.length ≤ k → ∀ n, n ≤ pre.length →
      (reSub pre F t).take n = t.take n := by
  intro k
  induction k with
  | zero =>
    intro t h n _
    have ht : t = [] := List.length_eq_zero.mp (by omega)
    subst ht
    rw [reSub_nil]
  | succ k ih =>
    intro t h n hn
    cases t with
    | nil => rw [reSub_nil]
    | cons c cs =>
      cases htm : tryMatch pre (c :: cs) with
      | some p =>
        obtain ⟨g, m, r⟩ := p
        rw [reSub_matched F htm]
        obtain ⟨-, hglen, -, he, -, -⟩ := tryMatch_some htm
        rw [he]
        simp only [List.append_assoc]
        rw [List.take_append_of_le_length (by omega : n ≤ g.length),
          List.take_append_of_le_length (by omega : n ≤ g.length)]
      | none =>
        rw [reSub_unmatched F htm]
        cases n with
        | zero => rfl
        | succ n' =>
          simp only [List.take_succ_cons]
          simp only [List.length_cons] at h
          rw [ih cs (by omega) n' (by omega)]

theorem reSub_take (pre F t : List Char) {n : ℕ} (hn : n ≤ pre.length) :
    (reSub pre F t).take n = t.take n :=
  reSub_take_aux pre F t.length t (le_refl _) n hn

/-- `-blue` cannot begin strictly inside a short chunk `E` followed by a
replacement middle `F` that avoids the letters of `blue`: the character
right after `E` would have to be a letter of `blue`, but it is either a
character of `F` or the leading `-` of the genuine suffix. -/
theorem suf_not_straddle {F : List Char}
    (hF : ∀ c ∈ F, c ≠ 'b' ∧ c ≠ 'l' ∧ c ≠ 'u' ∧ c ≠ 'e') :
    ∀ (E X : List Char), E ≠ [] → E.length < 5 →
      SUF.isPrefixOf (E ++ (F ++ (SUF ++ X))) = false := by
  intro E X hne hlt
  rcases E with _ | ⟨e1, E1⟩
  · exact absurd rfl hne
  rcases E1 with _ | ⟨e2, E2⟩
  · cases F with
    | nil => simp [SUF, List.isPrefixOf]
    | cons f F' =>
      have hf : (('b' : Char) == f) = false :=
        beq_eq_false_iff_ne.mpr (Ne.symm (hF f (by simp)).1)
      simp [SUF, List.isPrefixOf, hf]
  rcases E2 with _ | ⟨e3, E3⟩
  · cases F with
    | nil => simp [SUF, List.isPrefixOf]
    | cons f F' =>
      have hf : (('l' : Char) == f) = false :=
        beq_eq_false_iff_ne.mpr (Ne.symm (hF f (by simp)).2.1)
      simp [SUF, List.isPrefixOf, hf]
  rcases E3 with _ | ⟨e4, E4⟩
  · cases F with
    | nil => simp [SUF, List.isPrefixOf]
    | cons f F' =>
      have hf : (('u' : Char) == f) = false :=
        beq_eq_false_iff_ne.mpr (Ne.symm (hF f (by simp)).2.2.1)
      simp [SUF, List.isPrefixOf, hf]
  rcases E4 with _ | ⟨e5, E5⟩
  · cases F with
    | nil => simp [SUF, List.isPrefixOf]
    | cons f F' =>
      have hf : (('e' : Char) == f) = false :=
        beq_eq_false_iff_ne.mpr (Ne.symm (hF f (by simp)).2.2.2)
      simp [SUF, List.isPrefixOf, hf]
  · exfalso
    simp only [List.length_cons] at hlt
    omega

/-- The failure of the lazy search is preserved by the substitution: if,
from position `d` inside the first group, every occurrence of `-blue` is
preceded by a newline, this still holds after replacing matched middles
further right. -/
theorem noLazy_reSub (pre F : List Char) (hpre : 5 ≤ pre.length)
    (hF : ∀ c ∈ F, c ≠ 'b' ∧ c ≠ 'l' ∧ c ≠ 'u' ∧ c ≠ 'e' ∧ c ≠ '\n') :
    ∀ k t, t.length ≤ k → ∀ d, d ≤ pre.length →
      (∀ q, SUF.isPrefixOf ((t.drop d).drop q) = true → '\n' ∈ (t.drop d).take q) →
      ∀ q, SUF.isPrefixOf (((reSub pre F t).drop d).drop q) = true →
        '\n' ∈ ((reSub pre F t).drop d).take q := by
  intro k
  induction k with
  | zero =>
    intro t h d _ hNL q
    have ht : t = [] := List.length_eq_zero.mp (by omega)
    subst ht
    rw [reSub_nil]
    exact hNL q
  | succ k ih =>
    intro t h d hd hNL q hq
    cases t with
    | nil =>
      rw [reSub_nil] at hq ⊢
      exact hNL q hq
    | cons c cs =>
      cases htm : tryMatch pre (c :: cs) with
      | some p =>
        obtain ⟨g, m, r⟩ := p
        obtain ⟨-, hglen, -, he, hnlm, -⟩ := tryMatch_some htm
        have hdg : d ≤ g.length := by omega
        have hGlen : (g.drop d).length = g.length - d := List.length_drop d g
        have hdropOld : (c :: cs).drop d = g.drop d ++ (m ++ (SUF ++ r)) := by
          rw [he]
          simp only [List.append_assoc]
          exact List.drop_append_of_le_length hdg
        have hdropNew :
            (reSub pre F (c :: cs)).drop d =
              g.drop d ++ (F ++ (SUF ++ reSub pre F r)) := by
          rw [reSub_matched F htm]
          simp only [List.append_assoc]
          exact List.drop_append_of_le_length hdg
        -- a newline sits inside `g.drop d`
        have hGnl : '\n' ∈ g.drop d := by
          have hat : SUF.isPrefixOf
              (((c :: cs).drop d).drop ((g.drop d).length + m.length)) = true := by
            rw [hdropOld, ← List.append_assoc, ← List.length_append,
              List.drop_left]
            rw [ List.isPrefixOf_iff_prefix]
            exact List.prefix_append SUF r
          have hmem := hNL ((g.drop d).length + m.length) hat
          rw [hdropOld, ← List.append_assoc, ← List.length_append,
            List.take_left] at hmem
          rcases List.mem_append.mp hmem with h1 | h1
          · exact h1
          · exact absurd h1 hnlm
        obtain ⟨p', hp', hpe⟩ := List.mem_iff_getElem.mp hGnl
        rw [hdropNew] at hq ⊢
        rcases Nat.lt_or_ge p' q with hpq | hpq
        · -- the newline is inside the first `q` characters
          have hplen : p' < (g.drop d ++ (F ++ (SUF ++ reSub pre F r))).length := by
            rw [List.length_append]
            omega
          have hidx : (g.drop d ++ (F ++ (SUF ++ reSub pre F r)))[p'] = '\n' := by
            rw [List.getElem_append_left hp']
            exact hpe
          exact mem_take_of_getElem hpq hplen hidx
        · have hqG : q < (g.drop d).length := lt_of_le_of_lt hpq hp'
          rw [List.drop_append_of_le_length (by omega)] at hq
          by_cases hq5 : q + 5 ≤ (g.drop d).length
          · -- the occurrence lies inside `g.drop d`: transfer to the old text
            have hlen5 : SUF.length ≤ ((g.drop d).drop q).length := by
              rw [List.length_drop]
              show 5 ≤ (g.drop d).length - q
              omega
            have hcongr : SUF.isPrefixOf ((g.drop d).drop q ++ (F ++ (SUF ++ reSub pre F r)))
                = SUF.isPrefixOf ((g.drop d).drop q ++ (m ++ (SUF ++ r))) :=
              isPrefixOf_congr (by
                rw [List.take_append_of_le_length hlen5,
                  List.take_append_of_le_length hlen5])
            have htrans : SUF.isPrefixOf (((c :: cs).drop d).drop q) = true := by
              rw [hdropOld, List.drop_append_of_le_length (by omega), ← hcongr]
              exact hq
            have hmem := hNL q htrans
            rw [hdropOld, List.take_append_of_le_length (by omega)] at hmem
            rw [List.take_append_of_le_length (by omega)]
            exact hmem
          · -- the occurrence would straddle the boundary: impossible
            exfalso
            have hGqlen : ((g.drop d).drop q).length = (g.drop d).length - q :=
              List.length_drop q (g.drop d)
            have hEne : (g.drop d).drop q ≠ [] := by
              intro hcon
              rw [hcon] at hGqlen
              simp at hGqlen
              omega
            have hElt : ((g.drop d).drop q).length < 5 := by omega
            have hfalse := suf_not_straddle
              (fun c hc => ⟨(hF c hc).1, (hF c hc).2.1, (hF c hc).2.2.1,
                (hF c hc).2.2.2.1⟩)
              ((g.drop d).drop q) (reSub pre F r) hEne hElt
            rw [hq] at hfalse
            exact absurd hfalse (by simp)
      | none =>
        rw [reSub_unmatched F htm] at hq ⊢
        cases d with
        | succ e =>
          show '\n' ∈ ((reSub pre F cs).drop e).take q
          simp only [List.length_cons] at h
          exact ih cs (by omega) e (by omega) hNL q hq
        | zero =>
          show '\n' ∈ (c :: reSub pre F cs).take q
          cases q with
          | zero =>
            exfalso
            have h5 : (c :: reSub pre F cs).take SUF.length
                = (c :: cs).take SUF.length := by
              show (c :: reSub pre F cs).take 5 = (c :: cs).take 5
              simp only [List.take_succ_cons]
              rw [reSub_take pre F cs (by omega : 4 ≤ pre.length)]
            have hold : SUF.isPrefixOf (c :: cs) = true := by
              rw [← isPrefixOf_congr h5]
              simpa using hq
            have h0 := hNL 0 (by simpa using hold)
            simp at h0
          | succ j =>
            by_cases hc : c = '\n'
            · simp [List.take_succ_cons, hc]
            · have hNLcs : ∀ q', SUF.isPrefixOf ((cs.drop 0).drop q') = true →
                  '\n' ∈ (cs.drop 0).take q' := by
                intro q' hq'
                have hstep := hNL (q' + 1) (by simpa using hq')
                simp only [List.drop_zero] at hq' ⊢
                simp only [List.take_succ_cons, List.mem_cons, List.drop_zero] at hstep
                rcases hstep with h1 | h1
                · exact absurd h1.symm hc
                · exact h1
              simp only [List.length_cons] at h
              have hres := ih cs (by omega) 0 (by omega) hNLcs j (by simpa using hq)
              simp only [List.drop_zero] at hres
              simp only [List.take_succ_cons, List.mem_cons]
              exact Or.inr hres

/-! ### Idempotence of the substitution -/

theorem reSub_idem_aux (pre F : List Char) (hpre : 5 ≤ pre.length)
    (hF : ∀ c ∈ F, c ≠ 'b' ∧ c ≠ 'l' ∧ c ≠ 'u' ∧ c ≠ 'e' ∧ c ≠ '\n') :
    ∀ k t, t.length ≤ k → reSub pre F (reSub pre F t) = reSub pre F t := by
  intro k
  induction k with
  | zero =>
    intro t h
    have ht : t = [] := List.length_eq_zero.mp (by omega)
    subst ht
    rw [reSub_nil, reSub_nil]
  | succ k ih =>
    intro t h
    cases t with
    | nil => rw [reSub_nil, reSub_nil]
    | cons c cs =>
      cases htm : tryMatch pre (c :: cs) with
      | some p =>
        obtain ⟨g, m, r⟩ := p
        obtain ⟨hg, hglen, hw, he, -, -⟩ := tryMatch_some htm
        rw [reSub_matched F htm]
        -- the rewritten badge matches again, with middle exactly `F`
        have htake : (g ++ F ++ SUF ++ reSub pre F r).take pre.length = g := by
          simp only [List.append_assoc]
          rw [List.take_append_of_le_length (by omega), ← hglen, List.take_length]
        have htakeeq : (g ++ F ++ SUF ++ reSub pre F r).take pre.length
            = (c :: cs).take pre.length := by
          rw [htake]
          exact hg
        have hw2 : wildMatch pre (g ++ F ++ SUF ++ reSub pre F r) = true := by
          rw [wildMatch_congr htakeeq]
          exact hw
        have hdrop : (g ++ F ++ SUF ++ reSub pre F r).drop pre.length
            = F ++ SUF ++ reSub pre F r := by
          simp only [List.append_assoc]
          rw [← hglen, List.drop_left]
        have hfl2 : findLazy ((g ++ F ++ SUF ++ reSub pre F r).drop pre.length)
            = some (F, reSub pre F r) := by
          rw [hdrop]
          exact findLazy_skip F (fun x hx => ⟨(hF x hx).1, (hF x hx).2.2.2.2⟩)
            (reSub pre F r)
        have htm2 : tryMatch pre (g ++ F ++ SUF ++ reSub pre F r)
            = some (g, F, reSub pre F r) := by
          unfold tryMatch
          rw [if_pos hw2, hfl2, htake]
        rw [reSub_matched F htm2]
        have hrlen : r.length ≤ k := by
          have := tryMatch_length_lt htm
          simp only [List.length_cons] at this h
          omega
        rw [ih r hrlen]
      | none =>
        rw [reSub_unmatched F htm]
        have htake : (c :: reSub pre F cs).take pre.length = (c :: cs).take pre.length := by
          have hp1 : pre.length = (pre.length - 1) + 1 := by omega
          rw [hp1, List.take_succ_cons, List.take_succ_cons,
            reSub_take pre F cs (by omega : pre.length - 1 ≤ pre.length)]
        have htm2 : tryMatch pre (c :: reSub pre F cs) = none := by
          by_cases hw : wildMatch pre (c :: cs) = true
          · -- the prefix still matches, but the lazy search still fails
            have hwnew : wildMatch pre (c :: reSub pre F cs) = true := by
              rw [wildMatch_congr htake]
              exact hw
            have hflold : findLazy ((c :: cs).drop pre.length) = none := by
              cases hfl : findLazy ((c :: cs).drop pre.length) with
              | none => rfl
              | some p =>
                obtain ⟨m, r⟩ := p
                exfalso
                have hsome : tryMatch pre (c :: cs)
                    = some ((c :: cs).take pre.length, m, r) := by
                  unfold tryMatch
                  rw [if_pos hw, hfl]
                rw [htm] at hsome
                exact absurd hsome (by simp)
            have hNLold := (findLazy_none_iff ((c :: cs).drop pre.length)).mp hflold
            have hNLnew :
                ∀ q, SUF.isPrefixOf (((c :: reSub pre F cs).drop pre.length).drop q) = true →
                  '\n' ∈ ((c :: reSub pre F cs).drop pre.length).take q := by
              have := noLazy_reSub pre F hpre hF (c :: cs).length (c :: cs) (le_refl _)
                pre.length (le_refl _) hNLold
              rw [reSub_unmatched F htm] at this
              exact this
            have hflnew : findLazy ((c :: reSub pre F cs).drop pre.length) = none :=
              (findLazy_none_iff _).mpr hNLnew
            unfold tryMatch
            rw [if_pos hwnew, hflnew]
          · have hwb : wildMatch pre (c :: cs) = false := (Bool.not_eq_true _).mp hw
            have hwnew : wildMatch pre (c :: reSub pre F cs) = false := by
              rw [wildMatch_congr htake]
              exact hwb
            unfold tryMatch
            rw [if_neg (by simp [hwnew])]
        rw [reSub_unmatched F htm2]
        simp only [List.length_cons] at h
        rw [ih cs (by omega)]

theorem reSub_idem (pre F t : List Char) (hpre : 5 ≤ pre.length)
    (hF : ∀ c ∈ F, c ≠ 'b' ∧ c ≠ 'l' ∧ c ≠ 'u' ∧ c ≠ 'e' ∧ c ≠ '\n') :
    reSub pre F (reSub pre F t) = reSub pre F t :=
  reSub_idem_aux pre F hpre hF t.length t (le_refl _)

/-! ### The replacement middle produced by `format_size` -/

theorem strip2_chars (n : ℕ) : ∀ c ∈ strip2 n, c ∈ DIGITS ∨ c = '.' := by
  intro c hc
  have hmem : c ∈ render2 n := rstrip_subset _ _ c (rstrip_subset _ _ c hc)
  unfold render2 at hmem
  rcases List.mem_append.mp hmem with h1 | h1
  · exact Or.inl (natRepr_digits _ c h1)
  · rcases List.mem_cons.mp h1 with h2 | h2
    · exact Or.inr h2
    · rcases List.mem_cons.mp h2 with h3 | h3
      · exact Or.inl (h3 ▸ digitChar_mem _)
      · rw [List.mem_singleton] at h3
        exact Or.inl (h3 ▸ digitChar_mem _)

theorem format_size_chars (z : ℤ) :
    ∀ c ∈ (format_size z).toList, c ≠ 'b' ∧ c ≠ 'l' ∧ c ≠ 'u' ∧ c ≠ 'e' ∧ c ≠ '\n' := by
  have hdig : ∀ c : Char, c ∈ DIGITS ∨ c = '.' →
      c ≠ 'b' ∧ c ≠ 'l' ∧ c ≠ 'u' ∧ c ≠ 'e' ∧ c ≠ '\n' := by
    intro c hc
    rcases hc with hc | hc
    · have h := mem_DIGITS_ne hc
      exact ⟨h.2.2.2.2.1, h.2.2.2.2.2.1, h.2.2.2.2.2.2.1, h.2.2.2.2.2.2.2, h.2.2.2.1⟩
    · subst hc
      exact ⟨by decide, by decide, by decide, by decide, by decide⟩
  have hKB : ∀ c : Char, c ∈ [' ', 'K', 'B'] →
      c ≠ 'b' ∧ c ≠ 'l' ∧ c ≠ 'u' ∧ c ≠ 'e' ∧ c ≠ '\n' := by
    intro c hc
    fin_cases hc <;> exact ⟨by decide, by decide, by decide, by decide, by decide⟩
  have hMB : ∀ c : Char, c ∈ [' ', 'M', 'B'] →
      c ≠ 'b' ∧ c ≠ 'l' ∧ c ≠ 'u' ∧ c ≠ 'e' ∧ c ≠ '\n' := by
    intro c hc
    fin_cases hc <;> exact ⟨by decide, by decide, by decide, by decide, by decide⟩
  intro c hc
  unfold format_size at hc
  by_cases h1 : z < 1000 * 1000
  · rw [if_pos h1] at hc
    have hc' : c ∈ (if z < 0 then ['-'] else []) ++
        strip2 (dblHundredths z.natAbs 1000) ++ " KB".toList := hc
    rcases List.mem_append.mp hc' with h2 | h2
    · rcases List.mem_append.mp h2 with h3 | h3
      · by_cases hz : z < 0
        · rw [if_pos hz, List.mem_singleton] at h3
          subst h3
          exact ⟨by decide, by decide, by decide, by decide, by decide⟩
        · rw [if_neg hz] at h3
          simp at h3
      · exact hdig c (strip2_chars _ c h3)
    · exact hKB c h2
  · rw [if_neg h1] at hc
    have hc' : c ∈ strip2 (dblHundredths z.natAbs 1000000) ++ " MB".toList := hc
    rcases List.mem_append.mp hc' with h2 | h2
    · exact hdig c (strip2_chars _ c h2)
    · exact hMB c h2

/-! ### The badge pattern text -/

theorem badgePre_eq (name : String) :
    badgePre name = "https://img.shields.io/badge/".toList ++ name.toList ++ "-".toList := by
  unfold badgePre
  show (("https://img.shields.io/badge/" ++ name) ++ "-").data
    = "https://img.shields.io/badge/".data ++ name.data ++ "-".data
  rw [String.data_append, String.data_append]

theorem badgePre_length (name : String) : 5 ≤ (badgePre name).length := by
  rw [badgePre_eq]
  have h29 : ("https://img.shields.io/badge/".toList).length = 29 := by decide
  simp only [List.length_append]
  omega

theorem badgePre_no_newline {name : String} (h : '\n' ∉ name.toList) :
    '\n' ∉ badgePre name := by
  rw [badgePre_eq]
  intro hmem
  rcases List.mem_append.mp hmem with h1 | h1
  · rcases List.mem_append.mp h1 with h2 | h2
    · exact absurd h2 (by decide)
    · exact h h2
  · exact absurd h1 (by decide)

/-! ### The frame relation: output differs from input only in matched
middles -/

/-- `FrameRel pre F t t'` says that `t'` is obtained from `t` by walking the
two lists in lockstep, keeping characters identical, except that segments of
the shape `g ++ m ++ -blue` — where `g` matches the badge pattern (its dots
as wildcards) and `m` is a newline-free middle — may have the middle `m`
replaced by `F`, keeping `g` and `-blue` byte for byte. -/
inductive FrameRel (pre F : List Char) : List Char → List Char → Prop
  | nil : FrameRel pre F [] []
  | keep (c : Char) (t t' : List Char) :
      FrameRel pre F t t' → FrameRel pre F (c :: t) (c :: t')
  | subst (g m r r' : List Char) :
      g.length = pre.length → wildMatch pre g = true → '\n' ∉ m →
      FrameRel pre F r r' →
      FrameRel pre F (g ++ m ++ SUF ++ r) (g ++ F ++ SUF ++ r')

theorem frameRel_reSub_aux (pre F : List Char) :
    ∀ k t, t.length ≤ k → FrameRel pre F t (reSub pre F t) := by
  intro k
  induction k with
  | zero =>
    intro t h
    have ht : t = [] := List.length_eq_zero.mp (by omega)
    subst ht
    rw [reSub_nil]
    exact FrameRel.nil
  | succ k ih =>
    intro t h
    cases t with
    | nil =>
      rw [reSub_nil]
      exact FrameRel.nil
    | cons c cs =>
      cases htm : tryMatch pre (c :: cs) with
      | some p =>
        obtain ⟨g, m, r⟩ := p
        obtain ⟨hg, hglen, hw, he, hnlm, -⟩ := tryMatch_some htm
        rw [reSub_matched F htm, he]
        have hwg : wildMatch pre g = true := by
          have h1 : g.take pre.length = (c :: cs).take pre.length := by
            rw [← hg, ← hglen, List.take_length]
          rw [wildMatch_congr h1]
          exact hw
        have hrlen : r.length ≤ k := by
          have := tryMatch_length_lt htm
          simp only [List.length_cons] at this h
          omega
        exact FrameRel.subst g m r (reSub pre F r) hglen hwg hnlm (ih r hrlen)
      | none =>
        rw [reSub_unmatched F htm]
        simp only [List.length_cons] at h
        exact FrameRel.keep c cs (reSub pre F cs) (ih cs (by omega))

theorem frameRel_reSub (pre F t : List Char) : FrameRel pre F t (reSub pre F t) :=
  frameRel_reSub_aux pre F t.length t (le_refl _)

/-! ### No match anywhere: identity -/

/-- Does the badge pattern match at some position of `t`?  This is exactly
the question `re.search` would answer. -/
def anyBadge (pre t : List Char) : Bool :=
  t.tails.any (fun s => (tryMatch pre s).isSome)

theorem reSub_id_of_no_match_aux (pre F : List Char) :
    ∀ k t, t.length ≤ k → anyBadge pre t = false → reSub pre F t = t := by
  intro k
  induction k with
  | zero =>
    intro t h _
    have ht : t = [] := List.length_eq_zero.mp (by omega)
    subst ht
    rw [reSub_nil]
  | succ k ih =>
    intro t h hno
    cases t with
    | nil => rw [reSub_nil]
    | cons c cs =>
      unfold anyBadge at hno
      rw [List.tails_cons, List.any_cons] at hno
      rcases Bool.or_eq_false_iff.mp hno with ⟨h1, h2⟩
      have htm : tryMatch pre (c :: cs) = none := Option.not_isSome_iff_eq_none.mp (by
        simp [h1])
      simp only [List.length_cons] at h
      rw [reSub_unmatched F htm, ih cs (by omega) h2]

/-! ### Skipping over text in which no match starts -/

theorem reSub_skip (pre F : List Char) :
    ∀ s rest, (∀ i, i < s.length → wildMatch pre ((s ++ rest).drop i) = false) →
      reSub pre F (s ++ rest) = s ++ reSub pre F rest := by
  intro s
  induction s with
  | nil => intro rest _; rfl
  | cons c s' ih =>
    intro rest hskip
    have h0 : wildMatch pre (c :: (s' ++ rest)) = false := by
      simpa using hskip 0 (by simp)
    have htm : tryMatch pre (c :: (s' ++ rest)) = none := by
      unfold tryMatch
      rw [if_neg (by simp [h0])]
    show reSub pre F (c :: (s' ++ rest)) = c :: (s' ++ reSub pre F rest)
    rw [reSub_unmatched F htm,
      ih rest (fun i hi => by simpa using hskip (i + 1) (by simpa using hi))]

/-- Decidable side condition: the badge pattern's first group matches at no
position strictly inside `s`, even looking ahead into an adjacent copy of
the pattern text.  Because `wildMatch` inspects only `pre.length`
characters, this is independent of what follows that copy. -/
def noPreStart (pre s : List Char) : Bool :=
  (List.range s.length).all (fun i => !(wildMatch pre ((s ++ pre).drop i)))

theorem noPreStart_elim {pre s : List Char} (h : noPreStart pre s = true)
    (X : List Char) :
    ∀ i, i < s.length → wildMatch pre ((s ++ (pre ++ X)).drop i) = false := by
  intro i hi
  have hb := List.all_eq_true.mp h i (List.mem_range.mpr hi)
  have hb' : wildMatch pre ((s ++ pre).drop i) = false := by simpa using hb
  have hlen : pre.length ≤ ((s ++ pre).drop i).length := by
    rw [List.length_drop, List.length_append]
    omega
  have heq : ((s ++ (pre ++ X)).drop i).take pre.length
      = ((s ++ pre).drop i).take pre.length := by
    rw [← List.append_assoc,
      List.drop_append_of_le_length (by
        rw [List.length_append]
        omega : i ≤ (s ++ pre).length),
      List.take_append_of_le_length hlen]
  rw [wildMatch_congr heq, hb']

/-! ### Clean middles for explicit multi-badge documents -/

/-- Decidable side condition on a middle `m`: no newline, and `-blue` does
not occur at any position strictly before the real suffix. -/
def cleanMid (m : List Char) : Bool :=
  m.all (fun c => !(c == '\n')) &&
  (List.range m.length).all (fun i => !(SUF.isPrefixOf ((m ++ SUF).drop i)))

theorem cleanMid_no_newline {m : List Char} (h : cleanMid m = true) : '\n' ∉ m := by
  intro hmem
  rcases Bool.and_eq_true_iff.mp h with ⟨h1, -⟩
  have := List.all_eq_true.mp h1 _ hmem
  simp at this

theorem cleanMid_min {m : List Char} (h : cleanMid m = true) (r : List Char) :
    ∀ i, i < m.length → SUF.isPrefixOf ((m ++ (SUF ++ r)).drop i) = false := by
  intro i hi
  rcases Bool.and_eq_true_iff.mp h with ⟨-, h2⟩
  have hb := List.all_eq_true.mp h2 i (List.mem_range.mpr hi)
  have hb' : SUF.isPrefixOf ((m ++ SUF).drop i) = false := by simpa using hb
  have hd1 : (m ++ (SUF ++ r)).drop i = m.drop i ++ (SUF ++ r) :=
    List.drop_append_of_le_length (by omega)
  have hd2 : (m ++ SUF).drop i = m.drop i ++ SUF :=
    List.drop_append_of_le_length (by omega)
  rw [hd2] at hb'
  rw [hd1, ← hb']
  apply isPrefixOf_congr
  rw [List.take_append_eq_append_take, List.take_append_eq_append_take,
    List.take_append_eq_append_take]
  have h0 : SUF.length - (m.drop i).length - SUF.length = 0 := by omega
  rw [h0, List.take_zero, List.append_nil]

theorem findLazy_clean {m : List Char} (hm : cleanMid m = true) (r : List Char) :
    findLazy (m ++ (SUF ++ r)) = some (m, r) := by
  have h1 := cleanMid_no_newline hm
  have h2 := cleanMid_min hm r
  have := findLazy_complete m r h1 (fun i hi => by
    simpa [List.append_assoc] using h2 i hi)
  simpa [List.append_assoc] using this

/-! ### Full characterisation of the matcher -/

theorem tryMatch_iff (pre t g m r : List Char) :
    tryMatch pre t = some (g, m, r) ↔
      (t = g ++ (m ++ (SUF ++ r)) ∧ g.length = pre.length ∧
       wildMatch pre g = true ∧ '\n' ∉ m ∧
       ∀ i, i < m.length → SUF.isPrefixOf ((m ++ (SUF ++ r)).drop i) = false) := by
  constructor
  · intro h
    obtain ⟨hg, hglen, hw, he, hnl, hfl⟩ := tryMatch_some h
    obtain ⟨hdec, -, hmin⟩ := findLazy_some hfl
    have hdrop : t.drop pre.length = m ++ SUF ++ r := hdec
    refine ⟨by simpa [List.append_assoc] using he, hglen, ?_, hnl, ?_⟩
    · have h1 : g.take pre.length = t.take pre.length := by
        rw [← hg, ← hglen, List.take_length]
      rw [wildMatch_congr h1]
      exact hw
    · intro i hi
      have := hmin i hi
      rw [hdrop] at this
      simpa [List.append_assoc] using this
  · rintro ⟨he, hglen, hwg, hnl, hmin⟩
    have h1 : t.take pre.length = g := by
      rw [he, ← hglen]
      exact List.take_left g _
    have h2 : g.take pre.length = g := by
      rw [← hglen]
      exact List.take_length g
    have hw : wildMatch pre t = true := by
      rw [wildMatch_congr (h1.trans h2.symm)]
      exact hwg
    have hdrop : t.drop pre.length = m ++ (SUF ++ r) := by
      rw [he, ← hglen]
      exact List.drop_left g _
    have hfl : findLazy (t.drop pre.length) = some (m, r) := by
      rw [hdrop]
      have := findLazy_complete m r hnl (fun i hi => by
        simpa [List.append_assoc] using hmin i hi)
      simpa [List.append_assoc] using this
    unfold tryMatch
    rw [if_pos hw, hfl, h1]

/-! ## The claims -/

/-- C1 (counterexample): the program does not render the exact value
`b / 1000` — at `b = 1015` the binary64 double nearest to 1.015 is
`1.01499999999999990...`, so the program returns `"1.01 KB"`, while the
value 1.015 rendered with two decimal digits and stripped is `"1.02"`
(the halfway count 101.5 rounds to 102 under ties-to-even, and under
ties-away-from-zero alike). -/
theorem C1_counterexample :
    format_size 1015 = "1.01 KB" ∧
    String.mk (stripSpec (roundHalfEven 1015 10) ++ " KB".toList) = "1.02 KB" ∧
    ("1.01 KB" : String) ≠ "1.02 KB" := by
  refine ⟨by decide, by decide, by decide⟩

/-- C1 (amended): for every non-negative integer byte count `b`,
`format_size` returns the IEEE-754 binary64 double nearest to `b / 1000`
(the result of Python's true division, ties to even) rendered with two
decimal digits — the number of hundredths is `dblHundredths b 1000` —
with trailing zeros and then a trailing decimal point stripped
(`stripSpec`), followed by `" KB"` when `b < 1000000`; otherwise the
double nearest to `b / 1000000`, rendered and stripped the same way,
followed by `" MB"`. -/
theorem C1_format_size_spec (b : ℕ) :
    format_size (b : ℤ) =
      if b < 1000000
      then String.mk (stripSpec (dblHundredths b 1000) ++ " KB".toList)
      else String.mk (stripSpec (dblHundredths b 1000000) ++ " MB".toList) := by
  have hnn : ¬ ((b : ℤ) < 0) := by omega
  unfold format_size
  by_cases hb : b < 1000000
  · rw [if_pos (show (b : ℤ) < 1000 * 1000 by omega), if_pos hb, if_neg hnn,
      Int.natAbs_ofNat, strip2_eq]
    rw [List.nil_append]
  · rw [if_neg (show ¬ (b : ℤ) < 1000 * 1000 by omega), if_neg hb,
      Int.natAbs_ofNat, strip2_eq]

/-- C2 (counterexample): a successful run rewrites the middle of a segment
that is not a badge marker — the document contains neither literal marker
prefix (the unescaped regex dots match the characters `A` and `B`) — yet
the written document differs from the original. -/
theorem C2_counterexample :
    run_main ["update_readme.py", "1000", "2000000"]
        (some "See https://imgAshieldsBio/badge/binary_size-OLD-blue now")
      = some ⟨0, [], some "See https://imgAshieldsBio/badge/binary_size-1 KB-blue now"⟩ ∧
    "See https://imgAshieldsBio/badge/binary_size-1 KB-blue now"
      ≠ "See https://imgAshieldsBio/badge/binary_size-OLD-blue now" ∧
    occursIn "https://img.shields.io/badge/binary_size-".toList
      "See https://imgAshieldsBio/badge/binary_size-OLD-blue now".toList = false ∧
    occursIn "https://img.shields.io/badge/wasm_size-".toList
      "See https://imgAshieldsBio/badge/binary_size-OLD-blue now".toList = false := by
  refine ⟨by decide, by decide, by decide, by decide⟩

/-- C2 (amended): every successful run writes
`update_badge (update_badge doc "binary_size" n1) "wasm_size" n2`, and each
of the two substitutions changes the document only by replacing the middle
field of segments matched by the badge pattern — the URL prefix with its
two dots matched as wildcards, the middle newline-free, the `-blue` suffix
kept — leaving every other character unchanged and in order (`FrameRel`). -/
theorem C2_run_frame (doc p a1 a2 : String) (n1 n2 : ℤ)
    (h1 : pyInt a1 = some n1) (h2 : pyInt a2 = some n2) :
    run_main [p, a1, a2] (some doc) =
      some ⟨0, [], some (update_badge (update_badge doc "binary_size" n1) "wasm_size" n2)⟩ ∧
    FrameRel (badgePre "binary_size") (format_size n1).toList doc.toList
      (update_badge doc "binary_size" n1).toList ∧
    FrameRel (badgePre "wasm_size") (format_size n2).toList
      (update_badge doc "binary_size" n1).toList
      (update_badge (update_badge doc "binary_size" n1) "wasm_size" n2).toList := by
  refine ⟨?_, ?_, ?_⟩
  · have e : run_main [p, a1, a2] (some doc) =
        (match pyInt a1 with
        | none => none
        | some n1 =>
          match pyInt a2 with
          | none => none
          | some n2 =>
            some ⟨0, [], some (update_badge (update_badge doc "binary_size" n1)
              "wasm_size" n2)⟩) := rfl
    rw [e, h1, h2]
  · exact frameRel_reSub _ _ doc.toList
  · exact frameRel_reSub _ _ (update_badge doc "binary_size" n1).toList

theorem C2_run_frame_witness :
    run_main ["update_readme.py", "1000", "2000000"] (some "a") =
      some ⟨0, [], some (update_badge (update_badge "a" "binary_size" 1000)
        "wasm_size" 2000000)⟩ ∧
    FrameRel (badgePre "binary_size") (format_size 1000).toList "a".toList
      (update_badge "a" "binary_size" 1000).toList ∧
    FrameRel (badgePre "wasm_size") (format_size 2000000).toList
      (update_badge "a" "binary_size" 1000).toList
      (update_badge (update_badge "a" "binary_size" 1000) "wasm_size" 2000000).toList :=
  C2_run_frame "a" "update_readme.py" "1000" "2000000" 1000 2000000
    (by decide) (by decide)

/-- C3 (counterexample): the prefix of the badge pattern is not matched
literally — the two unescaped dots of `img.shields.io` match `X` and `Y`,
so a URL whose prefix differs from the literal string is rewritten. -/
theorem C3_counterexample :
    update_badge "https://imgXshieldsYio/badge/wasm_size-9.99 KB-blue"
        "wasm_size" 2000000
      = "https://imgXshieldsYio/badge/wasm_size-2 MB-blue" ∧
    occursIn "https://img.shields.io/badge/".toList
      "https://imgXshieldsYio/badge/wasm_size-9.99 KB-blue".toList = false := by
  refine ⟨by decide, by decide⟩

/-- C3 (amended): a badge marker is matched if and only if it consists of a
prefix in which each character of `https://img.shields.io/badge/<name>-` is
matched literally except the `.` characters, which match any single
non-newline character (`wildMatch`), then a shortest-match middle that
contains no newline and no earlier occurrence of `-blue`, then the literal
suffix `-blue`. -/
theorem C3_match_iff (name : String) (t g m r : List Char) :
    tryMatch (badgePre name) t = some (g, m, r) ↔
      (t = g ++ (m ++ (SUF ++ r)) ∧ g.length = (badgePre name).length ∧
       wildMatch (badgePre name) g = true ∧ '\n' ∉ m ∧
       ∀ i, i < m.length → SUF.isPrefixOf ((m ++ (SUF ++ r)).drop i) = false) :=
  tryMatch_iff (badgePre name) t g m r

theorem C3_match_iff_witness :
    tryMatch (badgePre "binary_size")
        "https://img.shields.io/badge/binary_size-1 KB-blue".toList
      = some ("https://img.shields.io/badge/binary_size-".toList, "1 KB".toList, []) :=
  (C3_match_iff "binary_size" _ _ _ _).mpr
    ⟨by decide, by decide, by decide, by decide, by decide⟩

/-- C4: a document in which the badge pattern matches at no position is
returned unchanged, byte for byte, and no error is raised (`update_badge`
is total). -/
theorem C4_no_match_id (doc name : String) (z : ℤ)
    (h : anyBadge (badgePre name) doc.toList = false) :
    update_badge doc name z = doc := by
  unfold update_badge
  rw [reSub_id_of_no_match_aux (badgePre name) (format_size z).toList
    doc.toList.length doc.toList (le_refl _) h]
  cases doc
  rfl

theorem C4_no_match_id_witness :
    update_badge "no badge markers here" "binary_size" 1000
      = "no badge markers here" :=
  C4_no_match_id "no badge markers here" "binary_size" 1000 (by decide)

/-- C5: with a number of arguments different from two (three including the
program name), the run prints the usage line, exits with status 1, and
neither reads nor writes the document (the result is independent of the
file and `written = none`); with exactly two integer arguments it writes
the document with both badges substituted — `binary_size` from the first
argument, `wasm_size` from the second — and exits with status 0. -/
theorem C5_cli :
    (∀ (argv : List String) (file : Option String), argv.length ≠ 3 →
      run_main argv file = some ⟨1, [usageMsg], none⟩) ∧
    (∀ (p a1 a2 doc : String) (n1 n2 : ℤ), pyInt a1 = some n1 → pyInt a2 = some n2 →
      run_main [p, a1, a2] (some doc) =
        some ⟨0, [], some (update_badge (update_badge doc "binary_size" n1)
          "wasm_size" n2)⟩) := by
  constructor
  · intro argv file h
    rcases argv with _ | ⟨a, _ | ⟨b, _ | ⟨c, _ | ⟨d, t⟩⟩⟩⟩
    · rfl
    · rfl
    · rfl
    · simp at h
    · rfl
  · intro p a1 a2 doc n1 n2 h1 h2
    have e : run_main [p, a1, a2] (some doc) =
        (match pyInt a1 with
        | none => none
        | some n1 =>
          match pyInt a2 with
          | none => none
          | some n2 =>
            some ⟨0, [], some (update_badge (update_badge doc "binary_size" n1)
              "wasm_size" n2)⟩) := rfl
    rw [e, h1, h2]

theorem C5_cli_witness :
    run_main ["update_readme.py"] none = some ⟨1, [usageMsg], none⟩ ∧
    run_main ["update_readme.py", "1500", "2000000"] (some "x") =
      some ⟨0, [], some (update_badge (update_badge "x" "binary_size" 1500)
        "wasm_size" 2000000)⟩ :=
  ⟨C5_cli.1 ["update_readme.py"] none (by decide),
   C5_cli.2 "update_readme.py" "1500" "2000000" "x" 1500 2000000
     (by decide) (by decide)⟩

/-- C6: the formatting call on a string argument fails if and only if the
argument does not parse as an integer, where parsing is Python's `int()`:
surrounding whitespace stripped, optional sign, decimal digits with
optional single grouping underscores between digits.  Every
integer-valued string — any sign, any whitespace padding, grouped forms
such as `"1_000_000"` — parses and formats without error; non-integer
strings (`"12x"`, misplaced underscores, a space between sign and digits,
the empty string) fail; and a parse failure on either argument propagates
uncaught, crashing the run (modelled as `none`). -/
theorem C6_parse_errors :
    (∀ s : String, (format_size_checked s).isSome ↔ (pyInt s).isSome) ∧
    (∀ z : ℤ, format_size_checked (intRepr z) = some (format_size z)) ∧
    (∀ (z : ℤ) (a b : ℕ),
      pyInt ⟨List.replicate a ' ' ++ (intRepr z).toList ++ List.replicate b ' '⟩
        = some z) ∧
    format_size_checked " 500000 " = some "500 KB" ∧
    format_size_checked "1_000_000" = some "1 MB" ∧
    format_size_checked "+1500" = some "1.5 KB" ∧
    (format_size_checked "12x" = none ∧ format_size_checked "1_" = none ∧
      format_size_checked "_1" = none ∧ format_size_checked "1__0" = none ∧
      format_size_checked "- 5" = none ∧ format_size_checked "" = none) ∧
    (∀ p a1 a2 doc : String, pyInt a1 = none →
      run_main [p, a1, a2] (some doc) = none) ∧
    (∀ p a1 a2 doc : String, ∀ n1 : ℤ, pyInt a1 = some n1 → pyInt a2 = none →
      run_main [p, a1, a2] (some doc) = none) := by
  refine ⟨?_, ?_, ?_, by decide, by decide, by decide,
    ⟨by decide, by decide, by decide, by decide, by decide, by decide⟩, ?_, ?_⟩
  · intro s
    unfold format_size_checked
    cases pyInt s <;> simp
  · intro z
    unfold format_size_checked
    rw [pyInt_intRepr]
    rfl
  · intro z a b
    exact pyInt_pad z a b
  · intro p a1 a2 doc h
    have e : run_main [p, a1, a2] (some doc) =
        (match pyInt a1 with
        | none => none
        | some n1 =>
          match pyInt a2 with
          | none => none
          | some n2 =>
            some ⟨0, [], some (update_badge (update_badge doc "binary_size" n1)
              "wasm_size" n2)⟩) := rfl
    rw [e, h]
  · intro p a1 a2 doc n1 h1 h2
    have e : run_main [p, a1, a2] (some doc) =
        (match pyInt a1 with
        | none => none
        | some n1 =>
          match pyInt a2 with
          | none => none
          | some n2 =>
            some ⟨0, [], some (update_badge (update_badge doc "binary_size" n1)
              "wasm_size" n2)⟩) := rfl
    rw [e, h1, h2]

theorem C6_parse_errors_witness :
    format_size_checked (intRepr 500000) = some (format_size 500000) ∧
    pyInt ⟨List.replicate 1 ' ' ++ (intRepr 500000).toList ++ List.replicate 2 ' '⟩
      = some 500000 ∧
    run_main ["update_readme.py", "12x", "5"] (some "d") = none :=
  ⟨C6_parse_errors.2.1 500000, C6_parse_errors.2.2.1 500000 1 2,
   C6_parse_errors.2.2.2.2.2.2.2.1 "update_readme.py" "12x" "5" "d" (by decide)⟩

/-- C7: in a document containing two occurrences of the badge pattern (an
inert head `t0`, a first badge with middle `m1`, an inert separator, a
second badge with middle `m2`), the single left-to-right pass of `re.sub`
rewrites both occurrences independently with the same formatted size: the
substitution is global, not limited to the first occurrence. -/
theorem C7_global (name : String) (z : ℤ) (t0 sep m1 m2 : List Char)
    (hn : '\n' ∉ name.toList)
    (hm1 : cleanMid m1 = true) (hm2 : cleanMid m2 = true)
    (h0 : noPreStart (badgePre name) t0 = true)
    (hs : noPreStart (badgePre name) sep = true) :
    reSub (badgePre name) (format_size z).toList
        (t0 ++ (badgePre name ++ (m1 ++ (SUF ++
          (sep ++ (badgePre name ++ (m2 ++ SUF)))))))
      = t0 ++ (badgePre name ++ ((format_size z).toList ++ (SUF ++
          (sep ++ (badgePre name ++ ((format_size z).toList ++ SUF)))))) := by
  have hnl : '\n' ∉ badgePre name := badgePre_no_newline hn
  have hself : wildMatch (badgePre name) (badgePre name) = true := wildMatch_self hnl
  have hmatch : ∀ m rest, cleanMid m = true →
      tryMatch (badgePre name) (badgePre name ++ (m ++ (SUF ++ rest)))
        = some (badgePre name, m, rest) := by
    intro m rest hm
    unfold tryMatch
    have hw : wildMatch (badgePre name)
        (badgePre name ++ (m ++ (SUF ++ rest))) = true := by
      rw [wildMatch_congr (List.take_append_of_le_length (le_refl _))]
      exact hself
    rw [if_pos hw, List.drop_left, findLazy_clean hm rest, List.take_left]
  rw [reSub_skip _ _ t0 _ (noPreStart_elim h0 _)]
  congr 1
  rw [reSub_matched _ (hmatch m1 (sep ++ (badgePre name ++ (m2 ++ SUF))) hm1)]
  simp only [List.append_assoc]
  congr 1
  congr 1
  congr 1
  rw [reSub_skip _ _ sep _ (noPreStart_elim hs _)]
  congr 1
  have htm2 : tryMatch (badgePre name) (badgePre name ++ (m2 ++ SUF))
      = some (badgePre name, m2, []) := by
    have := hmatch m2 [] hm2
    rw [List.append_nil] at this
    exact this
  rw [reSub_matched _ htm2, reSub_nil, List.append_nil]
  simp [List.append_assoc]

theorem C7_global_witness :
    reSub (badgePre "binary_size") (format_size 1500).toList
        ("x ".toList ++ (badgePre "binary_size" ++ ("9.99 KB".toList ++ (SUF ++
          (" and ".toList ++ (badgePre "binary_size" ++ ("OLD".toList ++ SUF)))))))
      = "x ".toList ++ (badgePre "binary_size" ++ ((format_size 1500).toList ++ (SUF ++
          (" and ".toList ++ (badgePre "binary_size" ++
            ((format_size 1500).toList ++ SUF)))))) :=
  C7_global "binary_size" 1500 "x ".toList " and ".toList "9.99 KB".toList "OLD".toList
    (by decide) (by decide) (by decide) (by decide) (by decide)

/-- C8: the concrete values of `format_size` at the spec's example inputs,
including the byte count exactly 1000000 falling in the MB branch. -/
theorem C8_concrete_values :
    format_size 1000 = "1 KB" ∧ format_size 1500 = "1.5 KB" ∧
    format_size 1234000 = "1.23 MB" ∧ format_size 2000000 = "2 MB" ∧
    format_size_checked "500000" = some "500 KB" ∧
    format_size_checked "1000000" = some "1 MB" := by
  refine ⟨by decide, by decide, by decide, by decide, by decide, by decide⟩

/-- C9: `update_badge` is idempotent — applying it a second time with the
same badge name and size to its own output returns that output unchanged,
for every document, badge name and size. -/
theorem C9_update_badge_idempotent (doc name : String) (z : ℤ) :
    update_badge (update_badge doc name z) name z = update_badge doc name z := by
  unfold update_badge
  congr 1
  show reSub (badgePre name) (format_size z).toList
      (reSub (badgePre name) (format_size z).toList doc.toList)
    = reSub (badgePre name) (format_size z).toList doc.toList
  exact reSub_idem (badgePre name) (format_size z).toList doc.toList
    (badgePre_length name) (format_size_chars z)

/-- C10: a badge marker is only matched when it lies on a single line: the
middle of every match is newline-free, and a candidate whose middle field
contains a newline is not matched and is left unchanged (shown on a
concrete document whose only candidate middle spans two lines). -/
theorem C10_single_line :
    (∀ (pre t g m r : List Char), tryMatch pre t = some (g, m, r) → '\n' ∉ m) ∧
    update_badge "https://img.shields.io/badge/binary_size-12\n34-blue"
        "binary_size" 1500
      = "https://img.shields.io/badge/binary_size-12\n34-blue" := by
  refine ⟨?_, by decide⟩
  intro pre t g m r h
  exact (tryMatch_some h).2.2.2.2.1

theorem C10_single_line_witness : '\n' ∉ "1 KB".toList :=
  C10_single_line.1 (badgePre "binary_size")
    "https://img.shields.io/badge/binary_size-1 KB-blue".toList
    "https://img.shields.io/badge/binary_size-".toList "1 KB".toList []
    (by decide)

end UpdateReadme
